import Mathlib

/-!
Verification of the Buho ZPL-to-PDF pipeline (src/main.py).

The embedding works on `List Char` for text.  Python regular expressions used
by the source are modelled as explicit scanning functions with the exact
leftmost-match semantics of `re.search` / `re.sub` / `re.findall` on the
patterns that appear in the source.  Python's `\s` is modelled on its ASCII
subset (space, tab, newline, carriage return, vertical tab, form feed), which
is exhaustive for the ZPL texts the program handles.
-/

/-- ASCII subset of Python's `\s` character class. -/
def isPySpace (c : Char) : Bool :=
  c = ' ' || c = '\t' || c = '\n' || c = '\r' || c = '\x0b' || c = '\x0c'

def isPc (c : Char) : Bool := c = 'P' || c = 'p'
def isQc (c : Char) : Bool := c = 'Q' || c = 'q'
def isXc (c : Char) : Bool := c = 'X' || c = 'x'
def isAc (c : Char) : Bool := c = 'A' || c = 'a'
def isZc (c : Char) : Bool := c = 'Z' || c = 'z'
def isFc (c : Char) : Bool := c = 'F' || c = 'f'
def isDc (c : Char) : Bool := c = 'D' || c = 'd'
def isSc (c : Char) : Bool := c = 'S' || c = 's'

/-- One decimal digit as a character. -/
def digitChar (n : Nat) : Char :=
  match n with
  | 0 => '0' | 1 => '1' | 2 => '2' | 3 => '3' | 4 => '4'
  | 5 => '5' | 6 => '6' | 7 => '7' | 8 => '8' | _ => '9'

/-- Numeric value of a decimal digit character. -/
def digitVal (c : Char) : Nat := c.toNat - '0'.toNat

/-- Value of a digit string, as Python's `int` computes it on `[0-9]+`. -/
def digitsToNat (ds : List Char) : Nat :=
  List.foldl (fun a c => a * 10 + digitVal c) 0 ds

/-- Accumulator loop of the decimal printer.  The first argument is fuel; any
fuel bounded below by the number being printed gives the full digit string
(`natDigitsAux_fuel`), so the recursion is structural and kernel-reducible. -/
def natDigitsAux : Nat → Nat → List Char → List Char
  | 0, _, acc => acc
  | fuel + 1, n, acc =>
    if n = 0 then acc else natDigitsAux fuel (n / 10) (digitChar (n % 10) :: acc)

/-- Decimal representation of a natural number, as Python's `str`/f-string prints it. -/
def natDigits (n : Nat) : List Char :=
  if n = 0 then ['0'] else natDigitsAux (n + 1) n []

theorem digitVal_digitChar {d : Nat} (h : d < 10) : digitVal (digitChar d) = d := by
  interval_cases d <;> rfl

theorem isDigit_digitChar (d : Nat) : (digitChar d).isDigit = true := by
  unfold digitChar
  split <;> rfl

theorem not_space_digitChar (d : Nat) : isPySpace (digitChar d) = false := by
  unfold digitChar
  split <;> rfl

theorem space_not_digit {c : Char} (h : isPySpace c = true) : c.isDigit = false := by
  simp only [isPySpace, Bool.or_eq_true, decide_eq_true_eq] at h
  rcases h with ((((h | h) | h) | h) | h) | h <;> subst h <;> rfl

theorem digit_not_space {c : Char} (h : c.isDigit = true) : isPySpace c = false := by
  by_cases hs : isPySpace c = true
  · rw [space_not_digit hs] at h; exact absurd h (by simp)
  · simpa using hs

theorem natDigitsAux_fuel :
    ∀ f₁ f₂ n : Nat, ∀ acc, n ≤ f₁ → n ≤ f₂ →
      natDigitsAux f₁ n acc = natDigitsAux f₂ n acc := by
  intro f₁
  induction f₁ with
  | zero =>
    intro f₂ n acc h1 _
    have : n = 0 := by omega
    subst this
    cases f₂ <;> simp [natDigitsAux]
  | succ f ih =>
    intro f₂ n acc h1 h2
    by_cases hn : n = 0
    · subst hn; cases f₂ <;> simp [natDigitsAux]
    · obtain ⟨f₂', rfl⟩ : ∃ f₂', f₂ = f₂' + 1 := ⟨f₂ - 1, by omega⟩
      simp only [natDigitsAux, if_neg hn]
      exact ih f₂' (n / 10) _ (by omega) (by omega)

theorem natDigitsAux_step {n : Nat} (hn : n ≠ 0) (acc : List Char) :
    natDigitsAux (n + 1) n acc =
      natDigitsAux (n / 10 + 1) (n / 10) (digitChar (n % 10) :: acc) := by
  simp only [natDigitsAux, if_neg hn]
  exact natDigitsAux_fuel n (n / 10 + 1) (n / 10) _ (by omega) (by omega)

theorem natDigitsAux_eq_append (n : Nat) :
    ∀ acc, natDigitsAux (n + 1) n acc = natDigitsAux (n + 1) n [] ++ acc := by
  induction n using Nat.strong_induction_on with
  | _ n ih =>
    intro acc
    by_cases h : n = 0
    · subst h; simp [natDigitsAux]
    · have hlt : n / 10 < n := Nat.div_lt_self (Nat.pos_of_ne_zero h) (by decide)
      rw [natDigitsAux_step h acc, natDigitsAux_step h []]
      rw [ih (n / 10) hlt (digitChar (n % 10) :: acc),
        ih (n / 10) hlt (digitChar (n % 10) :: [])]
      simp

theorem natDigitsAux_ne_nil {n : Nat} (h : n ≠ 0) : natDigitsAux (n + 1) n [] ≠ [] := by
  rw [natDigitsAux_step h, natDigitsAux_eq_append]
  simp

theorem natDigits_ne_nil (n : Nat) : natDigits n ≠ [] := by
  unfold natDigits
  split
  · simp
  · exact natDigitsAux_ne_nil (by assumption)

theorem natDigitsAux_all_digit (n : Nat) :
    ∀ c ∈ natDigitsAux (n + 1) n [], c.isDigit = true := by
  induction n using Nat.strong_induction_on with
  | _ n ih =>
    intro c hc
    by_cases h : n = 0
    · subst h; simp [natDigitsAux] at hc
    · rw [natDigitsAux_step h, natDigitsAux_eq_append] at hc
      rcases List.mem_append.mp hc with h₁ | h₂
      · exact ih (n / 10) (Nat.div_lt_self (Nat.pos_of_ne_zero h) (by decide)) c h₁
      · simp at h₂; subst h₂; exact isDigit_digitChar _

theorem natDigits_all_digit (n : Nat) : ∀ c ∈ natDigits n, c.isDigit = true := by
  unfold natDigits
  split
  · intro c hc; simp at hc; subst hc; rfl
  · exact natDigitsAux_all_digit n

theorem foldl_natDigitsAux (n : Nat) :
    ∀ a, List.foldl (fun a c => a * 10 + digitVal c) a (natDigitsAux (n + 1) n []) =
      a * 10 ^ (natDigitsAux (n + 1) n []).length + n := by
  induction n using Nat.strong_induction_on with
  | _ n ih =>
    intro a
    by_cases h : n = 0
    · subst h; simp [natDigitsAux]
    · have hlt : n / 10 < n := Nat.div_lt_self (Nat.pos_of_ne_zero h) (by decide)
      have e : natDigitsAux (n + 1) n [] =
          natDigitsAux (n / 10 + 1) (n / 10) [] ++ [digitChar (n % 10)] := by
        rw [natDigitsAux_step h, natDigitsAux_eq_append]
      rw [e, List.foldl_append, List.length_append, ih (n / 10) hlt]
      simp only [List.foldl_cons, List.foldl_nil, List.length_cons, List.length_nil]
      rw [digitVal_digitChar (Nat.mod_lt n (by decide)), pow_succ]
      calc (a * 10 ^ (natDigitsAux (n / 10 + 1) (n / 10) []).length + n / 10) * 10 + n % 10
          = a * (10 ^ (natDigitsAux (n / 10 + 1) (n / 10) []).length * 10) +
              (10 * (n / 10) + n % 10) := by ring
        _ = a * (10 ^ (natDigitsAux (n / 10 + 1) (n / 10) []).length * 10) + n := by
            rw [Nat.div_add_mod]

theorem digitsToNat_natDigits (n : Nat) : digitsToNat (natDigits n) = n := by
  unfold digitsToNat natDigits
  split
  · subst n; rfl
  · rw [foldl_natDigitsAux]; simp

/-!
The quantity directive.  `RE_PQ = re.compile(r"\^PQ\s*([0-9]+)", re.IGNORECASE)`.
`pqAt` attempts a match of this pattern anchored at the start of the text and
returns `(span, digits, rest)` — the full matched text (group 0), the digit
group (group 1), and the text after the match.  The pattern is deterministic:
`\s*` is greedy and no whitespace character is a digit, so no backtracking can
occur.
-/

def pqAt : List Char → Option (List Char × List Char × List Char)
  | c :: p :: q :: t =>
    if c = '^' && isPc p && isQc q then
      if (t.dropWhile isPySpace).takeWhile Char.isDigit = [] then none
      else some (c :: p :: q ::
            (t.takeWhile isPySpace ++ (t.dropWhile isPySpace).takeWhile Char.isDigit),
          (t.dropWhile isPySpace).takeWhile Char.isDigit,
          (t.dropWhile isPySpace).dropWhile Char.isDigit)
    else none
  | _ => none

/-- A regex match of `RE_PQ`, as `re.search` reports it: the text before the
match, the matched span, the digit group and the text after the match. -/
structure PQMatch where
  pre : List Char
  span : List Char
  digits : List Char
  rest : List Char
deriving DecidableEq

/-- `RE_PQ.search`: leftmost match of the quantity directive. -/
def findPQ : List Char → Option PQMatch
  | [] => none
  | c :: cs =>
    match pqAt (c :: cs) with
    | some (sp, ds, r) => some ⟨[], sp, ds, r⟩
    | none => (findPQ cs).map (fun m => ⟨c :: m.pre, m.span, m.digits, m.rest⟩)

/-- `parse_pq` from src/main.py: the number of copies; 1 when no `^PQ` is present. -/
def parse_pq (block : List Char) : Nat :=
  match findPQ block with
  | some m => digitsToNat m.digits
  | none => 1

/-- Does the text start with `^XZ` (case-insensitively) followed only by
whitespace?  This is where `re.sub(r"\^XZ\s*$", ...)` matches: `\s*` is greedy
and `$` accepts the end of the string (or the position before a final newline,
which is subsumed because a newline is itself whitespace). -/
def xzAllSpaceAt : List Char → Bool
  | c :: x :: z :: rest => c = '^' && isXc x && isZc z && rest.all isPySpace
  | _ => false

/-- `re.sub(r"\^XZ\s*$", f"^PQ{new_pq}\n^XZ", block, flags=re.IGNORECASE)`:
replace the block-final end marker (and the trailing whitespace the greedy
`\s*` consumes) with the new directive, a newline and a canonical `^XZ`.
At most one position can match, since the match extends to the end of the
string; when nothing matches the block is returned unchanged. -/
def subXZEnd : List Char → Nat → List Char
  | [], _ => []
  | c :: cs, n =>
    if xzAllSpaceAt (c :: cs) then
      '^' :: 'P' :: 'Q' :: natDigits n ++ ('\n' :: '^' :: 'X' :: 'Z' :: [])
    else c :: subXZEnd cs n

/-- `set_pq` from src/main.py: replace the first `^PQ` directive, or insert one
before the final `^XZ` when none exists. -/
def set_pq (block : List Char) (new_pq : Nat) : List Char :=
  match findPQ block with
  | some m => m.pre ++ ('^' :: 'P' :: 'Q' :: natDigits new_pq) ++ m.rest
  | none => subXZEnd block new_pq

/-- Is there a position where `\^XZ\s*$` matches (so `set_pq`'s insertion
branch actually rewrites the block)? -/
def xzEndFound : List Char → Bool
  | [] => false
  | c :: cs => xzAllSpaceAt (c :: cs) || xzEndFound cs

theorem pqAt_decomp {s sp ds r : List Char} (h : pqAt s = some (sp, ds, r)) :
    s = sp ++ r ∧ sp.head? = some '^' ∧ ds ≠ [] ∧
      (∀ c, r.head? = some c → c.isDigit = false) := by
  match s with
  | [] => simp [pqAt] at h
  | [c] => simp [pqAt] at h
  | [c, p] => simp [pqAt] at h
  | c :: p :: q :: t =>
    rw [pqAt] at h
    split at h
    · rename_i hcond
      split at h
      · exact absurd h (by simp)
      · rename_i hds
        simp only [Option.some.injEq, Prod.mk.injEq] at h
        obtain ⟨hsp, hdsx, hr⟩ := h
        have hc : c = '^' := by
          simp only [Bool.and_eq_true, decide_eq_true_eq] at hcond
          exact hcond.1.1
        refine ⟨?_, ?_, ?_, ?_⟩
        · rw [← hsp, ← hr]
          simp only [List.cons_append, List.cons.injEq, true_and, List.append_assoc,
            List.takeWhile_append_dropWhile]
        · rw [← hsp, hc]; rfl
        · rw [← hdsx]; exact hds
        · intro ch hch
          rw [← hr] at hch
          have := List.head?_dropWhile_not Char.isDigit (t.dropWhile isPySpace)
          rw [hch] at this
          simpa using this
    · exact absurd h (by simp)

theorem pqAt_canonical {r : List Char} (n : Nat)
    (hr : ∀ c, r.head? = some c → c.isDigit = false) :
    pqAt ('^' :: 'P' :: 'Q' :: (natDigits n ++ r)) =
      some ('^' :: 'P' :: 'Q' :: natDigits n, natDigits n, r) := by
  obtain ⟨d, nd', hnd⟩ : ∃ d nd', natDigits n = d :: nd' := by
    cases hh : natDigits n with
    | nil => exact absurd hh (natDigits_ne_nil n)
    | cons d nd' => exact ⟨d, nd', rfl⟩
  have hd : d.isDigit = true := by
    apply natDigits_all_digit n; rw [hnd]; simp
  have htw : (natDigits n ++ r).takeWhile Char.isDigit = natDigits n := by
    rw [List.takeWhile_append_of_pos (fun a ha => natDigits_all_digit n a ha)]
    have : r.takeWhile Char.isDigit = [] := by
      cases r with
      | nil => rfl
      | cons c cs =>
        rw [List.takeWhile_cons_of_neg]
        simp [hr c rfl]
    rw [this, List.append_nil]
  have hdw : (natDigits n ++ r).dropWhile isPySpace = natDigits n ++ r := by
    rw [hnd, List.cons_append, List.dropWhile_cons_of_neg]
    simp [digit_not_space hd]
  have hdwd : (natDigits n ++ r).dropWhile Char.isDigit = r := by
    rw [List.dropWhile_append_of_pos (fun a ha => natDigits_all_digit n a ha)]
    cases r with
    | nil => rfl
    | cons c cs =>
      rw [List.dropWhile_cons_of_neg]
      simp [hr c rfl]
  rw [pqAt]
  simp only [hdw, htw, hdwd]
  rw [if_pos (by decide), if_neg (by rw [hnd]; simp)]
  have htws : (natDigits n ++ r).takeWhile isPySpace = [] := by
    rw [hnd, List.cons_append, List.takeWhile_cons_of_neg]
    simp [digit_not_space hd]
  rw [htws]
  simp

theorem pqAt_caret_second (c : Char) (l : List Char) : pqAt (c :: '^' :: l) = none := by
  cases l with
  | nil => rfl
  | cons x xs => simp [pqAt, isPc]

theorem pqAt_caret_third (c d : Char) (l : List Char) : pqAt (c :: d :: '^' :: l) = none := by
  simp [pqAt, isQc]

theorem takeWhile_digit_dropWhile_space_swap :
    ∀ (u : List Char) {v w : List Char}, v.head? = some '^' → w.head? = some '^' →
      ((u ++ v).dropWhile isPySpace).takeWhile Char.isDigit = [] →
      ((u ++ w).dropWhile isPySpace).takeWhile Char.isDigit = [] := by
  intro u
  induction u with
  | nil =>
    intro v w hv hw _
    cases w with
    | nil => simp at hw
    | cons a as =>
      have : a = '^' := by simpa using hw
      subst this
      simp only [List.nil_append]
      rw [List.dropWhile_cons_of_neg (by simp [isPySpace])]
      rw [List.takeWhile_cons_of_neg (by simp [Char.isDigit])]
  | cons a u' ih =>
    intro v w hv hw h
    by_cases ha : isPySpace a = true
    · rw [List.cons_append, List.dropWhile_cons_of_pos ha] at h
      rw [List.cons_append, List.dropWhile_cons_of_pos ha]
      exact ih hv hw h
    · rw [List.cons_append, List.dropWhile_cons_of_neg (by simpa using ha)] at h
      rw [List.cons_append, List.dropWhile_cons_of_neg (by simpa using ha)]
      by_cases hd : a.isDigit = true
      · rw [List.takeWhile_cons_of_pos hd] at h
        exact absurd h (by simp)
      · rw [List.takeWhile_cons_of_neg (by simpa using hd)]

theorem pqAt_swap {t X Y r r' : List Char} (ht : t ≠ [])
    (hX : X.head? = some '^') (hY : Y.head? = some '^')
    (h : pqAt (t ++ X ++ r) = none) : pqAt (t ++ Y ++ r') = none := by
  obtain ⟨X₀, rfl⟩ : ∃ X₀, X = '^' :: X₀ := by
    cases X with
    | nil => simp at hX
    | cons a as => exact ⟨as, by simpa using (by simpa using hX : a = '^') ▸ rfl⟩
  obtain ⟨Y₀, rfl⟩ : ∃ Y₀, Y = '^' :: Y₀ := by
    cases Y with
    | nil => simp at hY
    | cons a as => exact ⟨as, by simpa using (by simpa using hY : a = '^') ▸ rfl⟩
  match t with
  | [] => exact absurd rfl ht
  | [c] =>
    have : ([c] ++ '^' :: Y₀ ++ r') = c :: '^' :: (Y₀ ++ r') := by simp
    rw [this]
    exact pqAt_caret_second c (Y₀ ++ r')
  | [c, d] =>
    have : ([c, d] ++ '^' :: Y₀ ++ r') = c :: d :: '^' :: (Y₀ ++ r') := by simp
    rw [this]
    exact pqAt_caret_third c d (Y₀ ++ r')
  | c :: d :: e :: t₃ =>
    have hx : (c :: d :: e :: t₃ ++ '^' :: X₀ ++ r) =
        c :: d :: e :: (t₃ ++ ('^' :: (X₀ ++ r))) := by simp
    have hy : (c :: d :: e :: t₃ ++ '^' :: Y₀ ++ r') =
        c :: d :: e :: (t₃ ++ ('^' :: (Y₀ ++ r'))) := by simp
    rw [hx] at h
    rw [hy]
    by_cases hC : (c = '^' && isPc d && isQc e) = true
    · rw [pqAt, if_pos hC] at h
      rw [pqAt, if_pos hC]
      by_cases htw :
          ((t₃ ++ ('^' :: (X₀ ++ r))).dropWhile isPySpace).takeWhile Char.isDigit = []
      · rw [if_pos (@takeWhile_digit_dropWhile_space_swap t₃ ('^' :: (X₀ ++ r))
          ('^' :: (Y₀ ++ r')) rfl rfl htw)]
      · rw [if_neg htw] at h
        exact absurd h (by simp)
    · rw [pqAt, if_neg hC] at h
      rw [pqAt, if_neg hC]

theorem findPQ_decomp : ∀ {s : List Char} {m : PQMatch}, findPQ s = some m →
    s = m.pre ++ m.span ++ m.rest ∧ m.span.head? = some '^' ∧ m.digits ≠ [] ∧
      (∀ c, m.rest.head? = some c → c.isDigit = false) := by
  intro s
  induction s with
  | nil => intro m h; simp [findPQ] at h
  | cons c cs ih =>
    intro m h
    rw [findPQ] at h
    cases hpq : pqAt (c :: cs) with
    | some v =>
      obtain ⟨sp, ds, r⟩ := v
      rw [hpq] at h
      simp only [Option.some.injEq] at h
      subst h
      obtain ⟨h1, h2, h3, h4⟩ := pqAt_decomp hpq
      exact ⟨by simpa using h1, h2, h3, h4⟩
    | none =>
      rw [hpq] at h
      cases hfs : findPQ cs with
      | none => rw [hfs] at h; simp at h
      | some m' =>
        rw [hfs] at h
        simp only [Option.map_some', Option.some.injEq] at h
        subst h
        obtain ⟨h1, h2, h3, h4⟩ := ih hfs
        exact ⟨by simpa using congrArg (c :: ·) h1, h2, h3, h4⟩

theorem findPQ_pre_fail : ∀ {s : List Char} {m : PQMatch}, findPQ s = some m →
    ∀ t₁ c t₂, m.pre = t₁ ++ c :: t₂ → pqAt (c :: (t₂ ++ m.span ++ m.rest)) = none := by
  intro s
  induction s with
  | nil => intro m h; simp [findPQ] at h
  | cons c₀ cs ih =>
    intro m h t₁ c t₂ hdec
    rw [findPQ] at h
    cases hpq : pqAt (c₀ :: cs) with
    | some v =>
      obtain ⟨sp, ds, r⟩ := v
      rw [hpq] at h
      simp only [Option.some.injEq] at h
      subst h
      simp at hdec
    | none =>
      rw [hpq] at h
      cases hfs : findPQ cs with
      | none => rw [hfs] at h; simp at h
      | some m' =>
        rw [hfs] at h
        simp only [Option.map_some', Option.some.injEq] at h
        subst h
        simp only at hdec
        cases t₁ with
        | nil =>
          simp only [List.nil_append, List.cons.injEq] at hdec
          obtain ⟨rfl, rfl⟩ := hdec
          have hcs : cs = m'.pre ++ m'.span ++ m'.rest := (findPQ_decomp hfs).1
          simpa [hcs] using hpq
        | cons c₁ t₁' =>
          simp only [List.cons_append, List.cons.injEq] at hdec
          exact ih hfs t₁' c t₂ hdec.2

theorem findPQ_none_fail : ∀ {s : List Char}, findPQ s = none →
    ∀ t₁ c t₂, s = t₁ ++ c :: t₂ → pqAt (c :: t₂) = none := by
  intro s
  induction s with
  | nil =>
    intro _ t₁ c t₂ hdec
    exact absurd hdec (by simp)
  | cons c₀ cs ih =>
    intro h t₁ c t₂ hdec
    rw [findPQ] at h
    cases hpq : pqAt (c₀ :: cs) with
    | some v => rw [hpq] at h; simp at h
    | none =>
      rw [hpq] at h
      have hfs : findPQ cs = none := by
        cases hfs : findPQ cs with
        | none => rfl
        | some m' => rw [hfs] at h; simp at h
      cases t₁ with
      | nil =>
        simp only [List.nil_append, List.cons.injEq] at hdec
        obtain ⟨rfl, rfl⟩ := hdec
        exact hpq
      | cons c₁ t₁' =>
        simp only [List.cons_append, List.cons.injEq] at hdec
        exact ih hfs t₁' c t₂ hdec.2

theorem findPQ_append_repl (n : Nat) :
    ∀ (pre tl : List Char),
      (∀ c, tl.head? = some c → c.isDigit = false) →
      (∀ t₁ c t₂, pre = t₁ ++ c :: t₂ →
        pqAt (c :: (t₂ ++ ('^' :: 'P' :: 'Q' :: natDigits n) ++ tl)) = none) →
      findPQ (pre ++ ('^' :: 'P' :: 'Q' :: natDigits n) ++ tl) =
        some ⟨pre, '^' :: 'P' :: 'Q' :: natDigits n, natDigits n, tl⟩ := by
  intro pre
  induction pre with
  | nil =>
    intro tl htl _
    have e : (([] : List Char) ++ ('^' :: 'P' :: 'Q' :: natDigits n) ++ tl) =
        '^' :: 'P' :: 'Q' :: (natDigits n ++ tl) := by simp
    rw [e, findPQ, pqAt_canonical n htl]
  | cons c pre' ih =>
    intro tl htl hfail
    have e : ((c :: pre') ++ ('^' :: 'P' :: 'Q' :: natDigits n) ++ tl) =
        c :: (pre' ++ ('^' :: 'P' :: 'Q' :: natDigits n) ++ tl) := by simp
    rw [e, findPQ]
    have h0 : pqAt (c :: (pre' ++ ('^' :: 'P' :: 'Q' :: natDigits n) ++ tl)) = none := by
      have := hfail [] c pre' rfl
      simpa using this
    rw [h0, ih tl htl (fun t₁ c' t₂ hd => hfail (c :: t₁) c' t₂ (by rw [hd]; rfl))]
    rfl

theorem all_space_of_caret_mem {l : List Char} (h : '^' ∈ l) :
    l.all isPySpace = false := by
  cases hall : l.all isPySpace with
  | false => rfl
  | true =>
    have := List.all_eq_true.mp hall '^' h
    simp [isPySpace] at this

theorem subXZEnd_decomp (n : Nat) :
    ∀ (pre : List Char) (x z : Char) (ws : List Char),
      isXc x = true → isZc z = true → ws.all isPySpace = true →
      subXZEnd (pre ++ '^' :: x :: z :: ws) n =
        pre ++ '^' :: 'P' :: 'Q' :: natDigits n ++ ('\n' :: '^' :: 'X' :: 'Z' :: []) := by
  intro pre
  induction pre with
  | nil =>
    intro x z ws hx hz hws
    rw [List.nil_append, subXZEnd, if_pos (by simp [xzAllSpaceAt, hx, hz, hws])]
    simp
  | cons c pre' ih =>
    intro x z ws hx hz hws
    have hfalse : xzAllSpaceAt (c :: (pre' ++ '^' :: x :: z :: ws)) = false := by
      cases pre' with
      | nil => simp [xzAllSpaceAt, isXc]
      | cons d pre'' =>
        cases pre'' with
        | nil => simp [xzAllSpaceAt, isZc]
        | cons e pre''' =>
          have hmem : '^' ∈ pre''' ++ '^' :: x :: z :: ws := by simp
          simp only [List.cons_append, xzAllSpaceAt]
          rw [all_space_of_caret_mem hmem]
          simp
    rw [List.cons_append, subXZEnd, if_neg (by simp [hfalse])]
    rw [ih x z ws hx hz hws]
    simp

theorem xzEndFound_decomp : ∀ {b : List Char}, xzEndFound b = true →
    ∃ pre x z ws, b = pre ++ '^' :: x :: z :: ws ∧
      isXc x = true ∧ isZc z = true ∧ ws.all isPySpace = true := by
  intro b
  induction b with
  | nil => intro h; simp [xzEndFound] at h
  | cons c cs ih =>
    intro h
    rw [xzEndFound, Bool.or_eq_true] at h
    cases h with
    | inl hx =>
      match c, cs, hx with
      | c, x :: z :: ws, hx =>
        simp only [xzAllSpaceAt, Bool.and_eq_true, decide_eq_true_eq] at hx
        obtain ⟨⟨⟨rfl, h1⟩, h2⟩, h3⟩ := hx
        exact ⟨[], x, z, ws, rfl, h1, h2, h3⟩
    | inr hr =>
      obtain ⟨pre, x, z, ws, heq, h1, h2, h3⟩ := ih hr
      exact ⟨c :: pre, x, z, ws, by rw [heq]; rfl, h1, h2, h3⟩

/-- When the block has a quantity directive, `set_pq` replaces exactly the
matched span with the canonical `^PQ` followed by the new number in decimal,
and the rewritten block's first directive match is that canonical directive. -/
theorem set_pq_found {b : List Char} {m : PQMatch} (h : findPQ b = some m) (n : Nat) :
    set_pq b n = m.pre ++ ('^' :: 'P' :: 'Q' :: natDigits n) ++ m.rest ∧
      findPQ (set_pq b n) =
        some ⟨m.pre, '^' :: 'P' :: 'Q' :: natDigits n, natDigits n, m.rest⟩ := by
  have heq : set_pq b n = m.pre ++ ('^' :: 'P' :: 'Q' :: natDigits n) ++ m.rest := by
    rw [set_pq, h]
  refine ⟨heq, ?_⟩
  rw [heq]
  apply findPQ_append_repl n m.pre m.rest (findPQ_decomp h).2.2.2
  intro t₁ c t₂ hdec
  have hold := findPQ_pre_fail h t₁ c t₂ hdec
  have hswap := @pqAt_swap (c :: t₂) m.span ('^' :: 'P' :: 'Q' :: natDigits n)
    m.rest m.rest (by simp) (findPQ_decomp h).2.1 rfl
    (by simpa using hold)
  simpa using hswap

theorem parse_pq_set_pq_found {b : List Char} {m : PQMatch}
    (h : findPQ b = some m) (n : Nat) : parse_pq (set_pq b n) = n := by
  rw [parse_pq, (set_pq_found h n).2]
  exact digitsToNat_natDigits n

/-- When the block has no quantity directive but ends with an `^XZ` end marker
(modulo trailing whitespace), `set_pq` rewrites the tail and the result's first
directive match is the inserted canonical directive. -/
theorem parse_pq_set_pq_inserted {b : List Char} (hnone : findPQ b = none)
    {pre : List Char} {x z : Char} {ws : List Char}
    (hb : b = pre ++ '^' :: x :: z :: ws)
    (hx : isXc x = true) (hz : isZc z = true) (hws : ws.all isPySpace = true)
    (n : Nat) : parse_pq (set_pq b n) = n := by
  have heq : set_pq b n =
      pre ++ ('^' :: 'P' :: 'Q' :: natDigits n) ++ ('\n' :: '^' :: 'X' :: 'Z' :: []) := by
    rw [set_pq, hnone, hb, subXZEnd_decomp n pre x z ws hx hz hws]
  have hfind : findPQ (set_pq b n) =
      some ⟨pre, '^' :: 'P' :: 'Q' :: natDigits n, natDigits n,
        '\n' :: '^' :: 'X' :: 'Z' :: []⟩ := by
    rw [heq]
    apply findPQ_append_repl
    · intro c hc
      simp only [List.head?_cons, Option.some.injEq] at hc
      subst hc
      rfl
    · intro t₁ c t₂ hdec
      have hold := findPQ_none_fail hnone t₁ c (t₂ ++ '^' :: x :: z :: ws)
        (by rw [hb, hdec]; simp)
      have hswap := @pqAt_swap (c :: t₂) ('^' :: x :: z :: ws)
        ('^' :: 'P' :: 'Q' :: natDigits n) [] ('\n' :: '^' :: 'X' :: 'Z' :: [])
        (by simp) rfl rfl (by simpa using hold)
      simpa using hswap
  rw [parse_pq, hfind]
  exact digitsToNat_natDigits n

/-- Claim C2: for every valid block `b` (one ending with the `^XZ` end marker,
allowing casing and trailing whitespace, which is exactly when the insertion
branch of `set_pq` can fire) and every positive integer `n`,
`parse_pq (set_pq b n) = n`, both when `b` already contains a `^PQ` directive
and when it does not. -/
theorem claim_C2 (b : List Char) (n : Nat) (hn : 1 ≤ n) (hb : xzEndFound b = true) :
    parse_pq (set_pq b n) = n := by
  cases hm : findPQ b with
  | some m => exact parse_pq_set_pq_found hm n
  | none =>
    obtain ⟨pre, x, z, ws, hb', hx, hz, hws⟩ := xzEndFound_decomp hb
    exact parse_pq_set_pq_inserted hm hb' hx hz hws n

theorem claim_C2_witness :
    (1 ≤ 7 ∧ xzEndFound ("^XA^PQ5^XZ".toList) = true ∧
      parse_pq (set_pq ("^XA^PQ5^XZ".toList) 7) = 7) ∧
    (1 ≤ 7 ∧ xzEndFound ("^XA^XZ".toList) = true ∧
      parse_pq (set_pq ("^XA^XZ".toList) 7) = 7) :=
  ⟨⟨by decide, by decide, claim_C2 ("^XA^PQ5^XZ".toList) 7 (by decide) (by decide)⟩,
   ⟨by decide, by decide, claim_C2 ("^XA^XZ".toList) 7 (by decide) (by decide)⟩⟩

/-- Claim C3, corrected: `set_pq` does not replace only the numeric argument of
the first directive — it replaces the *entire* matched directive (marker
casing, interstitial whitespace and digits) by the canonical `^PQ` followed by
`n` in decimal; in the insertion case it likewise replaces the final end marker
and the trailing whitespace by the new directive, a newline and a canonical
uppercase `^XZ`.  Text outside the matched region is unchanged. -/
theorem claim_C3 (b : List Char) (n : Nat) :
    (∀ m : PQMatch, findPQ b = some m →
      b = m.pre ++ m.span ++ m.rest ∧
        set_pq b n = m.pre ++ ('^' :: 'P' :: 'Q' :: natDigits n) ++ m.rest) ∧
    (findPQ b = none → ∀ pre ws, ∀ x z : Char, b = pre ++ '^' :: x :: z :: ws →
      isXc x = true → isZc z = true → ws.all isPySpace = true →
      set_pq b n =
        pre ++ ('^' :: 'P' :: 'Q' :: natDigits n) ++ ('\n' :: '^' :: 'X' :: 'Z' :: [])) := by
  constructor
  · intro m hm
    exact ⟨(findPQ_decomp hm).1, (set_pq_found hm n).1⟩
  · intro hnone pre ws x z hb hx hz hws
    rw [set_pq, hnone, hb, subXZEnd_decomp n pre x z ws hx hz hws]

theorem claim_C3_cex :
    set_pq ("^XA^PQ 5^XZ".toList) 7 = "^XA^PQ7^XZ".toList ∧
    "^XA^PQ7^XZ".toList ≠ "^XA^PQ 7^XZ".toList := by
  exact ⟨by decide, by decide⟩

theorem claim_C3_witness :
    "^XA^PQ 5^XZ".toList = "^XA".toList ++ "^PQ 5".toList ++ "^XZ".toList ∧
      set_pq ("^XA^PQ 5^XZ".toList) 7 =
        "^XA".toList ++ ('^' :: 'P' :: 'Q' :: natDigits 7) ++ "^XZ".toList :=
  (claim_C3 ("^XA^PQ 5^XZ".toList) 7).1
    ⟨"^XA".toList, "^PQ 5".toList, "5".toList, "^XZ".toList⟩ (by decide)

/-!
The request packer (`build_requests_from_blocks`, src/main.py lines 116-157).
The inner `while remaining > 0` loop is fuel-indexed; every iteration removes
`min 50 remaining ≥ 1` labels, so any fuel bounded below by `remaining` runs
the loop to completion (`splitLoop_fuel`), and the recursion stays structural.
-/

/-- Real label count of a request: the sum of `parse_pq` over its blocks. -/
def sumPQ (blocks : List (List Char)) : Nat := (blocks.map parse_pq).sum

/-- Total label count over a list of requests. -/
def totalPQ (reqs : List (List (List Char))) : Nat := (reqs.map sumPQ).sum

/-- The `while remaining > 0` splitting loop of `build_requests_from_blocks`:
carve `take = min(50, remaining)` labels into a rewritten copy of the block,
appending it to the current request when it fits and the request is non-empty,
and otherwise closing the current request and starting a new one. -/
def splitLoop (b : List Char) :
    Nat → Nat → List (List (List Char)) → List (List Char) → Nat →
      List (List (List Char)) × List (List Char) × Nat
  | 0, _, reqs, current, cnt => (reqs, current, cnt)
  | fuel + 1, remaining, reqs, current, cnt =>
    if remaining = 0 then (reqs, current, cnt)
    else
      if cnt + min 50 remaining ≤ 50 ∧ current ≠ [] then
        splitLoop b fuel (remaining - min 50 remaining) reqs
          (current ++ [set_pq b (min 50 remaining)]) (cnt + min 50 remaining)
      else
        splitLoop b fuel (remaining - min 50 remaining)
          (reqs ++ if current = [] then [] else [current])
          [set_pq b (min 50 remaining)] (min 50 remaining)

/-- The `for b in blocks` loop of `build_requests_from_blocks`, with the
accumulated requests, the current request and its label count as state. -/
def buildAux : List (List Char) → List (List (List Char)) → List (List Char) → Nat →
    List (List (List Char))
  | [], reqs, current, _ => reqs ++ if current = [] then [] else [current]
  | b :: bs, reqs, current, cnt =>
    if parse_pq b ≤ 50 then
      if cnt + parse_pq b ≤ 50 then buildAux bs reqs (current ++ [b]) (cnt + parse_pq b)
      else buildAux bs (reqs ++ if current = [] then [] else [current]) [b] (parse_pq b)
    else
      match splitLoop b (parse_pq b) (parse_pq b) reqs current cnt with
      | (reqs₂, cur₂, cnt₂) => buildAux bs reqs₂ cur₂ cnt₂

/-- `build_requests_from_blocks` from src/main.py. -/
def build_requests_from_blocks (blocks : List (List Char)) : List (List (List Char)) :=
  buildAux blocks [] [] 0

theorem sumPQ_nil : sumPQ [] = 0 := rfl

theorem sumPQ_append (l₁ l₂ : List (List Char)) :
    sumPQ (l₁ ++ l₂) = sumPQ l₁ + sumPQ l₂ := by simp [sumPQ]

theorem sumPQ_cons (b : List Char) (l : List (List Char)) :
    sumPQ (b :: l) = parse_pq b + sumPQ l := by simp [sumPQ]

theorem totalPQ_append (r₁ r₂ : List (List (List Char))) :
    totalPQ (r₁ ++ r₂) = totalPQ r₁ + totalPQ r₂ := by simp [totalPQ]

theorem totalPQ_close (reqs : List (List (List Char))) (current : List (List Char)) :
    totalPQ (reqs ++ if current = [] then [] else [current]) =
      totalPQ reqs + sumPQ current := by
  by_cases h : current = []
  · subst h; simp [totalPQ, sumPQ]
  · rw [if_neg h, totalPQ_append]; simp [totalPQ]

theorem splitLoop_zero (b : List Char) (fuel : Nat) (reqs) (current) (cnt) :
    splitLoop b fuel 0 reqs current cnt = (reqs, current, cnt) := by
  cases fuel <;> simp [splitLoop]

theorem splitLoop_spec (b : List Char)
    (hb : ∀ k, 1 ≤ k → k ≤ 50 → parse_pq (set_pq b k) = k) :
    ∀ fuel rem reqs current cnt, rem ≤ fuel →
      cnt = sumPQ current → cnt ≤ 50 → (∀ r ∈ reqs, sumPQ r ≤ 50) →
      ∀ reqs₂ cur₂ cnt₂, splitLoop b fuel rem reqs current cnt = (reqs₂, cur₂, cnt₂) →
        cnt₂ = sumPQ cur₂ ∧ cnt₂ ≤ 50 ∧ (∀ r ∈ reqs₂, sumPQ r ≤ 50) ∧
          totalPQ reqs₂ + sumPQ cur₂ = totalPQ reqs + sumPQ current + rem := by
  intro fuel
  induction fuel with
  | zero =>
    intro rem reqs current cnt hfuel hcnt hle hreqs reqs₂ cur₂ cnt₂ hsl
    have : rem = 0 := by omega
    subst this
    rw [splitLoop_zero] at hsl
    injection hsl with h1 h2
    injection h2 with h2 h3
    subst h1; subst h2; subst h3
    exact ⟨hcnt, hcnt ▸ hle, hreqs, by omega⟩
  | succ fuel ih =>
    intro rem reqs current cnt hfuel hcnt hle hreqs reqs₂ cur₂ cnt₂ hsl
    by_cases hrem : rem = 0
    · subst hrem
      rw [splitLoop_zero] at hsl
      injection hsl with h1 h2
      injection h2 with h2 h3
      subst h1; subst h2; subst h3
      exact ⟨hcnt, hcnt ▸ hle, hreqs, by omega⟩
    · have htake1 : 1 ≤ min 50 rem := by omega
      have htake50 : min 50 rem ≤ 50 := by omega
      have htakerem : min 50 rem ≤ rem := by omega
      have hpiece : parse_pq (set_pq b (min 50 rem)) = min 50 rem := hb _ htake1 htake50
      rw [splitLoop, if_neg hrem] at hsl
      by_cases hcond : cnt + min 50 rem ≤ 50 ∧ current ≠ []
      · rw [if_pos hcond] at hsl
        have hres := ih (rem - min 50 rem) reqs (current ++ [set_pq b (min 50 rem)])
          (cnt + min 50 rem) (by omega)
          (by rw [sumPQ_append, sumPQ_cons, sumPQ_nil, hpiece, hcnt]; omega)
          hcond.1 hreqs reqs₂ cur₂ cnt₂ hsl
        refine ⟨hres.1, hres.2.1, hres.2.2.1, ?_⟩
        have := hres.2.2.2
        rw [sumPQ_append, sumPQ_cons, sumPQ_nil, hpiece] at this
        omega
      · rw [if_neg hcond] at hsl
        have hreqs' : ∀ r ∈ (reqs ++ if current = [] then [] else [current]),
            sumPQ r ≤ 50 := by
          intro r hr
          rcases List.mem_append.mp hr with h | h
          · exact hreqs r h
          · by_cases hc : current = []
            · rw [if_pos hc] at h; simp at h
            · rw [if_neg hc] at h
              simp only [List.mem_singleton] at h
              subst h
              omega
        have hres := ih (rem - min 50 rem)
          (reqs ++ if current = [] then [] else [current])
          [set_pq b (min 50 rem)] (min 50 rem) (by omega)
          (by rw [sumPQ_cons, sumPQ_nil, hpiece]; omega)
          htake50 hreqs' reqs₂ cur₂ cnt₂ hsl
        refine ⟨hres.1, hres.2.1, hres.2.2.1, ?_⟩
        have := hres.2.2.2
        rw [totalPQ_close, sumPQ_cons, sumPQ_nil, hpiece] at this
        omega

theorem parse_pq_eq_one_of_none {b : List Char} (h : findPQ b = none) : parse_pq b = 1 := by
  rw [parse_pq, h]

theorem exists_match_of_parse_gt {b : List Char} (h : 50 < parse_pq b) :
    ∃ m, findPQ b = some m := by
  cases hm : findPQ b with
  | none => rw [parse_pq_eq_one_of_none hm] at h; omega
  | some m => exact ⟨m, rfl⟩

theorem buildAux_spec :
    ∀ (bs : List (List Char)) reqs current cnt,
      cnt = sumPQ current → cnt ≤ 50 → (∀ r ∈ reqs, sumPQ r ≤ 50) →
      (∀ r ∈ buildAux bs reqs current cnt, sumPQ r ≤ 50) ∧
        totalPQ (buildAux bs reqs current cnt) =
          totalPQ reqs + sumPQ current + sumPQ bs := by
  intro bs
  induction bs with
  | nil =>
    intro reqs current cnt hcnt hle hreqs
    constructor
    · intro r hr
      rw [buildAux] at hr
      rcases List.mem_append.mp hr with h | h
      · exact hreqs r h
      · by_cases hc : current = []
        · rw [if_pos hc] at h; simp at h
        · rw [if_neg hc] at h
          simp only [List.mem_singleton] at h
          subst h
          omega
    · rw [buildAux, totalPQ_close, sumPQ_nil]
      omega
  | cons b bs ih =>
    intro reqs current cnt hcnt hle hreqs
    rw [buildAux]
    by_cases hpq : parse_pq b ≤ 50
    · rw [if_pos hpq]
      by_cases hfit : cnt + parse_pq b ≤ 50
      · rw [if_pos hfit]
        have h := ih reqs (current ++ [b]) (cnt + parse_pq b)
          (by rw [sumPQ_append, sumPQ_cons, sumPQ_nil, hcnt]; omega) hfit hreqs
        refine ⟨h.1, ?_⟩
        rw [h.2, sumPQ_append, sumPQ_cons, sumPQ_nil, sumPQ_cons]
        omega
      · rw [if_neg hfit]
        have hreqs' : ∀ r ∈ (reqs ++ if current = [] then [] else [current]),
            sumPQ r ≤ 50 := by
          intro r hr
          rcases List.mem_append.mp hr with h | h
          · exact hreqs r h
          · by_cases hc : current = []
            · rw [if_pos hc] at h; simp at h
            · rw [if_neg hc] at h
              simp only [List.mem_singleton] at h
              subst h
              omega
        have h := ih (reqs ++ if current = [] then [] else [current]) [b] (parse_pq b)
          (by rw [sumPQ_cons, sumPQ_nil]; omega) hpq hreqs'
        refine ⟨h.1, ?_⟩
        rw [h.2, totalPQ_close, sumPQ_cons, sumPQ_nil, sumPQ_cons]
        omega
    · rw [if_neg hpq]
      obtain ⟨m, hm⟩ := @exists_match_of_parse_gt b (by omega)
      have hb : ∀ k, 1 ≤ k → k ≤ 50 → parse_pq (set_pq b k) = k :=
        fun k _ _ => parse_pq_set_pq_found hm k
      obtain ⟨⟨reqs₂, cur₂, cnt₂⟩, hsl⟩ :
          ∃ t, splitLoop b (parse_pq b) (parse_pq b) reqs current cnt = t := ⟨_, rfl⟩
      rw [hsl]
      have hspec := splitLoop_spec b hb (parse_pq b) (parse_pq b) reqs current cnt
        (le_refl _) hcnt hle hreqs reqs₂ cur₂ cnt₂ hsl
      have h := ih reqs₂ cur₂ cnt₂ hspec.1 hspec.2.1 hspec.2.2.1
      refine ⟨h.1, ?_⟩
      rw [h.2, sumPQ_cons]
      have := hspec.2.2.2
      omega

/-- Claim C1: for every list of blocks, every request produced by
`build_requests_from_blocks` carries at most 50 real labels (summing
`parse_pq`), and the total label count over all requests equals the total
label count of the input blocks — the packing step neither loses nor
duplicates copies. -/
theorem claim_C1 (blocks : List (List Char)) :
    (∀ req ∈ build_requests_from_blocks blocks, sumPQ req ≤ 50) ∧
      totalPQ (build_requests_from_blocks blocks) = sumPQ blocks := by
  have h := buildAux_spec blocks [] [] 0 rfl (by omega) (by simp)
  exact ⟨h.1, by simpa [totalPQ, sumPQ] using h.2⟩

theorem claim_C1_witness :
    (["^XA^PQ50^XZ".toList] ∈ build_requests_from_blocks ["^XA^PQ120^XZ".toList] ∧
      sumPQ ["^XA^PQ50^XZ".toList] ≤ 50) ∧
      totalPQ (build_requests_from_blocks ["^XA^PQ120^XZ".toList]) =
        sumPQ ["^XA^PQ120^XZ".toList] :=
  ⟨⟨by decide, (claim_C1 ["^XA^PQ120^XZ".toList]).1 ["^XA^PQ50^XZ".toList] (by decide)⟩,
    (claim_C1 ["^XA^PQ120^XZ".toList]).2⟩

theorem join_close (reqs : List (List (List Char))) (current : List (List Char)) :
    (reqs ++ if current = [] then [] else [current]).join = reqs.join ++ current := by
  by_cases h : current = []
  · subst h; simp
  · rw [if_neg h]; simp

theorem buildAux_join :
    ∀ (bs : List (List Char)) reqs current cnt, (∀ b ∈ bs, parse_pq b ≤ 50) →
      (buildAux bs reqs current cnt).join = reqs.join ++ current ++ bs := by
  intro bs
  induction bs with
  | nil =>
    intro reqs current cnt _
    rw [buildAux, join_close]
    simp
  | cons b bs ih =>
    intro reqs current cnt hbs
    have hb : parse_pq b ≤ 50 := hbs b (by simp)
    rw [buildAux, if_pos hb]
    by_cases hfit : cnt + parse_pq b ≤ 50
    · rw [if_pos hfit, ih _ _ _ (fun x hx => hbs x (by simp [hx]))]
      simp
    · rw [if_neg hfit, ih _ _ _ (fun x hx => hbs x (by simp [hx])), join_close]
      simp

/-- Claim C4: packing is greedy left-to-right and order-preserving — when no
block is oversized, concatenating the produced requests reproduces the input
block list verbatim (no reordering, loss or duplication), and on blocks with
quantities [10, 45, 5] the packer produces exactly the two requests
[[10-block]] and [[45-block, 5-block]]. -/
theorem claim_C4 :
    (∀ blocks : List (List Char), (∀ b ∈ blocks, parse_pq b ≤ 50) →
      (build_requests_from_blocks blocks).join = blocks) ∧
      build_requests_from_blocks
          ["^XA^PQ10^XZ".toList, "^XA^PQ45^XZ".toList, "^XA^PQ5^XZ".toList] =
        [["^XA^PQ10^XZ".toList], ["^XA^PQ45^XZ".toList, "^XA^PQ5^XZ".toList]] := by
  constructor
  · intro blocks hb
    have h := buildAux_join blocks [] [] 0 hb
    simpa [build_requests_from_blocks] using h
  · decide

theorem claim_C4_witness :
    (build_requests_from_blocks
        ["^XA^PQ10^XZ".toList, "^XA^PQ45^XZ".toList, "^XA^PQ5^XZ".toList]).join =
      ["^XA^PQ10^XZ".toList, "^XA^PQ45^XZ".toList, "^XA^PQ5^XZ".toList] :=
  claim_C4.1 ["^XA^PQ10^XZ".toList, "^XA^PQ45^XZ".toList, "^XA^PQ5^XZ".toList] (by decide)

/-- Fuel-indexed greedy chunking of a quantity into parts of at most 50. -/
def chunkAux : Nat → Nat → List Nat
  | 0, q => [q]
  | fuel + 1, q => if q ≤ 50 then [q] else 50 :: chunkAux fuel (q - 50)

/-- Modelled from the spec's splitting rule: fill fragments of 50 labels until
the remainder fits.  Used as the independent description the packer's split of
an oversized block is compared against. -/
def chunkQuantities (q : Nat) : List Nat := chunkAux q q

theorem chunkAux_fuel : ∀ f₁ f₂ q : Nat, q ≤ f₁ + 50 → q ≤ f₂ + 50 →
    chunkAux f₁ q = chunkAux f₂ q := by
  intro f₁
  induction f₁ with
  | zero =>
    intro f₂ q h1 _
    have hq : q ≤ 50 := by omega
    cases f₂ with
    | zero => rfl
    | succ f => simp [chunkAux, hq]
  | succ f ih =>
    intro f₂ q h1 h2
    by_cases hq : q ≤ 50
    · cases f₂ with
      | zero => simp [chunkAux, hq]
      | succ f' => simp [chunkAux, hq]
    · obtain ⟨f₂', rfl⟩ : ∃ f₂', f₂ = f₂' + 1 := ⟨f₂ - 1, by omega⟩
      rw [chunkAux, if_neg hq, chunkAux, if_neg hq]
      rw [ih f₂' (q - 50) (by omega) (by omega)]

theorem chunk_small {q : Nat} (h : q ≤ 50) : chunkQuantities q = [q] := by
  unfold chunkQuantities
  cases q with
  | zero => rfl
  | succ q' => rw [chunkAux, if_pos h]

theorem chunk_step {q : Nat} (h : 50 < q) :
    chunkQuantities q = 50 :: chunkQuantities (q - 50) := by
  unfold chunkQuantities
  obtain ⟨q', rfl⟩ : ∃ q', q = q' + 1 := ⟨q - 1, by omega⟩
  rw [chunkAux, if_neg (by omega)]
  rw [chunkAux_fuel q' (q' + 1 - 50) (q' + 1 - 50) (by omega) (by omega)]

theorem chunk_mem : ∀ q, 1 ≤ q → ∀ x ∈ chunkQuantities q, 1 ≤ x ∧ x ≤ 50 := by
  intro q
  induction q using Nat.strong_induction_on with
  | _ q ih =>
    intro hq x hx
    by_cases h : q ≤ 50
    · rw [chunk_small h] at hx
      simp at hx
      omega
    · rw [chunk_step (by omega)] at hx
      rcases List.mem_cons.mp hx with h1 | h1
      · omega
      · exact ih (q - 50) (by omega) (by omega) x h1

theorem splitLoop_single (b : List Char) :
    ∀ fuel rem, 1 ≤ rem → rem ≤ fuel → ∀ reqs cur,
      ∀ reqs₂ cur₂ cnt₂, splitLoop b fuel rem reqs [cur] 50 = (reqs₂, cur₂, cnt₂) →
        reqs₂ ++ [cur₂] =
          reqs ++ [[cur]] ++ (chunkQuantities rem).map (fun q => [set_pq b q]) ∧
          cur₂ ≠ [] := by
  intro fuel
  induction fuel with
  | zero => intro rem h1 h2; omega
  | succ fuel ih =>
    intro rem h1 h2 reqs cur reqs₂ cur₂ cnt₂ hsl
    have hrem : ¬rem = 0 := by omega
    have hcond : ¬(50 + min 50 rem ≤ 50 ∧ ([cur] : List (List Char)) ≠ []) := by
      intro hc
      omega
    rw [splitLoop, if_neg hrem, if_neg hcond, if_neg (by simp)] at hsl
    by_cases hsmall : rem ≤ 50
    · have htake : min 50 rem = rem := by omega
      rw [htake] at hsl
      rw [Nat.sub_self, splitLoop_zero] at hsl
      injection hsl with e1 e2
      injection e2 with e2 e3
      subst e1; subst e2
      rw [chunk_small hsmall]
      simp
    · have htake : min 50 rem = 50 := by omega
      rw [htake] at hsl
      have hres := ih (rem - 50) (by omega) (by omega)
        (reqs ++ [[cur]]) (set_pq b 50) reqs₂ cur₂ cnt₂ hsl
      refine ⟨?_, hres.2⟩
      have h50 : 50 < rem := by omega
      rw [hres.1]
      conv_rhs => rw [chunk_step h50]
      simp

theorem build_single_oversized {b : List Char} (hpq : 50 < parse_pq b) :
    build_requests_from_blocks [b] =
      (chunkQuantities (parse_pq b)).map (fun q => [set_pq b q]) := by
  rw [build_requests_from_blocks, buildAux, if_neg (by omega)]
  obtain ⟨⟨reqs₂, cur₂, cnt₂⟩, hsl⟩ :
      ∃ t, splitLoop b (parse_pq b) (parse_pq b) [] [] 0 = t := ⟨_, rfl⟩
  rw [hsl]
  show buildAux [] reqs₂ cur₂ cnt₂ = _
  obtain ⟨f, hf⟩ : ∃ f, parse_pq b = f + 1 := ⟨parse_pq b - 1, by omega⟩
  rw [hf] at hsl
  rw [splitLoop, if_neg (by omega), if_neg (by simp), if_pos rfl] at hsl
  have htake : min 50 (f + 1) = 50 := by omega
  rw [htake, List.nil_append] at hsl
  have hres := splitLoop_single b f (f + 1 - 50) (by omega) (by omega)
    [] (set_pq b 50) reqs₂ cur₂ cnt₂ hsl
  rw [buildAux, if_neg hres.2, hf, chunk_step (by omega)]
  have hr := hres.1
  simp only [List.nil_append] at hr
  rw [hr]
  simp

/-- Claim C5: a block whose own copy count exceeds the cap is split via
`set_pq` into consecutive fragments whose quantities are the greedy chunking
of the block's quantity (fragments of 50 until the remainder fits), each
fragment in its own single-block request; for the single block with `^PQ120`
the packer yields exactly three requests with quantities 50, 50 and 20. -/
theorem claim_C5 :
    (∀ b : List Char, 50 < parse_pq b →
      (build_requests_from_blocks [b]).map (fun r => r.map parse_pq) =
        (chunkQuantities (parse_pq b)).map (fun q => [q])) ∧
      build_requests_from_blocks ["^XA^PQ120^XZ".toList] =
        [["^XA^PQ50^XZ".toList], ["^XA^PQ50^XZ".toList], ["^XA^PQ20^XZ".toList]] := by
  constructor
  · intro b hpq
    obtain ⟨m, hm⟩ := @exists_match_of_parse_gt b hpq
    rw [build_single_oversized hpq, List.map_map]
    apply List.map_congr_left
    intro q hq
    simp only [Function.comp_apply, List.map_cons, List.map_nil]
    rw [parse_pq_set_pq_found hm q]
  · decide

theorem claim_C5_witness :
    50 < parse_pq ("^XA^PQ120^XZ".toList) ∧
      (build_requests_from_blocks ["^XA^PQ120^XZ".toList]).map (fun r => r.map parse_pq) =
        (chunkQuantities (parse_pq ("^XA^PQ120^XZ".toList))).map (fun q => [q]) :=
  ⟨by decide, claim_C5.1 ("^XA^PQ120^XZ".toList) (by decide)⟩

/-!
The block parser.  `RE_BLOCKS = re.compile(r"(\^XA.*?\^XZ)", re.DOTALL | re.IGNORECASE)`
and `zpl_split_blocks` (src/main.py lines 24-27).  `findall` takes, repeatedly,
the leftmost `^XA` from which a later `^XZ` exists, pairs it lazily with the
nearest such `^XZ`, and resumes scanning after the match.  The scanner is
fuel-indexed by the text length, which every step strictly decreases.
-/

/-- Line-ending normalization, `t.replace("\r\n", "\n").replace("\r", "\n")`. -/
def normNewlines : List Char → List Char
  | [] => []
  | '\r' :: '\n' :: rest => '\n' :: normNewlines rest
  | '\r' :: rest => '\n' :: normNewlines rest
  | c :: rest => c :: normNewlines rest

/-- Does the text start with `^XA` (case-insensitively)? -/
def isXAAt : List Char → Bool
  | c :: x :: a :: _ => c = '^' && isXc x && isAc a
  | _ => false

/-- Does the text start with `^XZ` (case-insensitively)? -/
def isXZAt : List Char → Bool
  | c :: x :: z :: _ => c = '^' && isXc x && isZc z
  | _ => false

/-- Scan to the nearest `^XZ` (the lazy `.*?\^XZ`): returns the consumed text
(including the marker) and the rest after it. -/
def scanToXZ : List Char → Option (List Char × List Char)
  | [] => none
  | c :: cs =>
    if isXZAt (c :: cs) then some (c :: cs.take 2, cs.drop 2)
    else (scanToXZ cs).map (fun pr => (c :: pr.1, pr.2))

/-- `RE_BLOCKS.findall`: all non-overlapping lazy `\^XA.*?\^XZ` matches in
appearance order. -/
def splitBlocksAux : Nat → List Char → List (List Char)
  | 0, _ => []
  | _ + 1, [] => []
  | fuel + 1, c :: cs =>
    if isXAAt (c :: cs) then
      match scanToXZ (cs.drop 2) with
      | some (mid, rest) => (c :: (cs.take 2 ++ mid)) :: splitBlocksAux fuel rest
      | none => splitBlocksAux fuel cs
    else splitBlocksAux fuel cs

/-- Number of non-overlapping start/end marker pairs, the spec's counting
notion: repeatedly take the leftmost `^XA` that has a later `^XZ`, pair it
with the nearest one, continue after the pair. -/
def countMarkerPairs : Nat → List Char → Nat
  | 0, _ => 0
  | _ + 1, [] => 0
  | fuel + 1, c :: cs =>
    if isXAAt (c :: cs) then
      match scanToXZ (cs.drop 2) with
      | some (_, rest) => 1 + countMarkerPairs fuel rest
      | none => countMarkerPairs fuel cs
    else countMarkerPairs fuel cs

/-- Python's `str.strip()` on the ASCII whitespace subset. -/
def pyStrip (s : List Char) : List Char :=
  ((s.dropWhile isPySpace).reverse.dropWhile isPySpace).reverse

/-- `zpl_split_blocks` from src/main.py: normalize line endings, find all
blocks, keep the stripped non-empty ones. -/
def zpl_split_blocks (t : List Char) : List (List Char) :=
  ((splitBlocksAux (normNewlines t).length (normNewlines t)).map pyStrip).filter
    (fun b => !b.isEmpty)

theorem isXZAt_shape {l : List Char} (h : isXZAt l = true) :
    ∃ x z rest, l = '^' :: x :: z :: rest := by
  match l, h with
  | c :: x :: z :: rest, h =>
    simp only [isXZAt, Bool.and_eq_true, decide_eq_true_eq] at h
    exact ⟨x, z, rest, by rw [h.1.1]⟩

theorem isXAAt_caret {c : Char} {cs : List Char} (h : isXAAt (c :: cs) = true) :
    c = '^' := by
  match cs, h with
  | x :: a :: rest, h =>
    simp only [isXAAt, Bool.and_eq_true, decide_eq_true_eq] at h
    exact h.1.1

theorem scanToXZ_len : ∀ {l : List Char} {p r : List Char},
    scanToXZ l = some (p, r) → r.length + 3 ≤ l.length := by
  intro l
  induction l with
  | nil => intro p r h; simp [scanToXZ] at h
  | cons c cs ih =>
    intro p r h
    rw [scanToXZ] at h
    by_cases hxz : isXZAt (c :: cs) = true
    · rw [if_pos hxz] at h
      obtain ⟨x, z, rest, hshape⟩ := isXZAt_shape hxz
      injection hshape with h1 h2
      subst h2
      simp only [Option.some.injEq, Prod.mk.injEq] at h
      rw [← h.2]
      simp
    · rw [if_neg hxz] at h
      cases hsc : scanToXZ cs with
      | none => rw [hsc] at h; simp at h
      | some pr =>
        rw [hsc] at h
        simp only [Option.map_some', Option.some.injEq, Prod.mk.injEq] at h
        have := @ih pr.1 pr.2 (by rw [hsc])
        rw [← h.2]
        simp only [List.length_cons]
        omega

theorem splitBlocksAux_fuel : ∀ f₁ f₂ s, s.length ≤ f₁ → s.length ≤ f₂ →
    splitBlocksAux f₁ s = splitBlocksAux f₂ s := by
  intro f₁
  induction f₁ with
  | zero =>
    intro f₂ s h1 _
    have : s = [] := by
      cases s with
      | nil => rfl
      | cons c cs => simp at h1
    subst this
    cases f₂ <;> rfl
  | succ f ih =>
    intro f₂ s h1 h2
    cases s with
    | nil => cases f₂ <;> rfl
    | cons c cs =>
      obtain ⟨f₂', rfl⟩ : ∃ f₂', f₂ = f₂' + 1 := ⟨f₂ - 1, by simp at h2; omega⟩
      simp only [List.length_cons] at h1 h2
      rw [splitBlocksAux, splitBlocksAux]
      by_cases hxa : isXAAt (c :: cs) = true
      · rw [if_pos hxa, if_pos hxa]
        cases hsc : scanToXZ (cs.drop 2) with
        | none => exact ih f₂' cs (by omega) (by omega)
        | some pr =>
          obtain ⟨mid, rest⟩ := pr
          have hlen := scanToXZ_len hsc
          simp only [List.length_drop] at hlen
          simp only []
          rw [ih f₂' rest (by omega) (by omega)]
      · rw [if_neg hxa, if_neg hxa]
        exact ih f₂' cs (by omega) (by omega)

theorem countMarkerPairs_fuel : ∀ f₁ f₂ s, s.length ≤ f₁ → s.length ≤ f₂ →
    countMarkerPairs f₁ s = countMarkerPairs f₂ s := by
  intro f₁
  induction f₁ with
  | zero =>
    intro f₂ s h1 _
    have : s = [] := by
      cases s with
      | nil => rfl
      | cons c cs => simp at h1
    subst this
    cases f₂ <;> rfl
  | succ f ih =>
    intro f₂ s h1 h2
    cases s with
    | nil => cases f₂ <;> rfl
    | cons c cs =>
      obtain ⟨f₂', rfl⟩ : ∃ f₂', f₂ = f₂' + 1 := ⟨f₂ - 1, by simp at h2; omega⟩
      simp only [List.length_cons] at h1 h2
      rw [countMarkerPairs, countMarkerPairs]
      by_cases hxa : isXAAt (c :: cs) = true
      · rw [if_pos hxa, if_pos hxa]
        cases hsc : scanToXZ (cs.drop 2) with
        | none => exact ih f₂' cs (by omega) (by omega)
        | some pr =>
          obtain ⟨mid, rest⟩ := pr
          have hlen := scanToXZ_len hsc
          simp only [List.length_drop] at hlen
          simp only []
          rw [ih f₂' rest (by omega) (by omega)]
      · rw [if_neg hxa, if_neg hxa]
        exact ih f₂' cs (by omega) (by omega)

theorem splitBlocksAux_count : ∀ fuel s,
    (splitBlocksAux fuel s).length = countMarkerPairs fuel s := by
  intro fuel
  induction fuel with
  | zero => intro s; rfl
  | succ f ih =>
    intro s
    cases s with
    | nil => rfl
    | cons c cs =>
      rw [splitBlocksAux, countMarkerPairs]
      by_cases hxa : isXAAt (c :: cs) = true
      · rw [if_pos hxa, if_pos hxa]
        cases hsc : scanToXZ (cs.drop 2) with
        | none => exact ih cs
        | some pr =>
          obtain ⟨mid, rest⟩ := pr
          simp only [List.length_cons, ih rest]
          omega
      · rw [if_neg hxa, if_neg hxa]
        exact ih cs

theorem splitBlocksAux_head : ∀ fuel s blk, blk ∈ splitBlocksAux fuel s →
    ∃ t, blk = '^' :: t := by
  intro fuel
  induction fuel with
  | zero => intro s blk h; simp [splitBlocksAux] at h
  | succ f ih =>
    intro s blk h
    cases s with
    | nil => simp [splitBlocksAux] at h
    | cons c cs =>
      rw [splitBlocksAux] at h
      by_cases hxa : isXAAt (c :: cs) = true
      · rw [if_pos hxa] at h
        cases hsc : scanToXZ (cs.drop 2) with
        | none => rw [hsc] at h; exact ih cs blk h
        | some pr =>
          obtain ⟨mid, rest⟩ := pr
          rw [hsc] at h
          rcases List.mem_cons.mp h with h1 | h1
          · exact ⟨cs.take 2 ++ mid, by rw [h1, isXAAt_caret hxa]⟩
          · exact ih rest blk h1
      · rw [if_neg hxa] at h
        exact ih cs blk h

theorem pyStrip_caret_ne_nil (t : List Char) : pyStrip ('^' :: t) ≠ [] := by
  intro h
  rw [pyStrip, List.reverse_eq_nil_iff, List.dropWhile_eq_nil_iff] at h
  have hdw : ('^' :: t).dropWhile isPySpace = '^' :: t := by
    rw [List.dropWhile_cons_of_neg (by simp [isPySpace])]
  rw [hdw] at h
  have : isPySpace '^' = true := h '^' (by simp)
  simp [isPySpace] at this

/-- Claim C6: `zpl_split_blocks` returns, in appearance order, one trimmed
non-empty string per non-overlapping start/end marker pair of the normalized
input (matching is case-insensitive and spans embedded newlines), so its
length equals the number of such pairs; the trimming filter never drops a
match, and zero blocks is a possible ordinary result. -/
theorem claim_C6 (t : List Char) :
    zpl_split_blocks t =
      (splitBlocksAux (normNewlines t).length (normNewlines t)).map pyStrip ∧
    (zpl_split_blocks t).length =
      countMarkerPairs (normNewlines t).length (normNewlines t) ∧
    ∀ b ∈ zpl_split_blocks t, b ≠ [] := by
  have hne : ∀ b ∈ (splitBlocksAux (normNewlines t).length (normNewlines t)).map pyStrip,
      b ≠ [] := by
    intro b hb
    obtain ⟨blk, hblk, rfl⟩ := List.mem_map.mp hb
    obtain ⟨u, rfl⟩ := splitBlocksAux_head _ _ blk hblk
    exact pyStrip_caret_ne_nil u
  have heq : zpl_split_blocks t =
      (splitBlocksAux (normNewlines t).length (normNewlines t)).map pyStrip := by
    rw [zpl_split_blocks]
    apply List.filter_eq_self.mpr
    intro b hb
    simp [List.isEmpty_iff, hne b hb]
  refine ⟨heq, ?_, ?_⟩
  · rw [heq, List.length_map, splitBlocksAux_count]
  · rw [heq]
    exact hne

theorem claim_C6_witness :
    (zpl_split_blocks ("junk ^XA^FD1^FS^XZ\r\n^xa^xz trailing".toList)).length =
      countMarkerPairs
        (normNewlines ("junk ^XA^FD1^FS^XZ\r\n^xa^xz trailing".toList)).length
        (normNewlines ("junk ^XA^FD1^FS^XZ\r\n^xa^xz trailing".toList)) ∧
      "^xa^xz".toList ≠ [] :=
  ⟨(claim_C6 ("junk ^XA^FD1^FS^XZ\r\n^xa^xz trailing".toList)).2.1,
    (claim_C6 ("junk ^XA^FD1^FS^XZ\r\n^xa^xz trailing".toList)).2.2
      ("^xa^xz".toList) (by decide)⟩

/-!
The delivery client `call_labelary_pdf` (src/main.py lines 62-101).  The
network is abstracted as an oracle giving, for each attempt number, either an
HTTP response (status code, binary content, text) or a raised
`requests.RequestException`; `random.uniform(0, 0.5*attempt)` is abstracted as
a jitter oracle indexed by attempt.  Sleeps are recorded, in seconds, in a log
whose head is the pre-loop rate-limit delay `time.sleep(rate_delay_s)`; each
retry appends its backoff sleep.  The URL, page size and timeout only shape
the request and are subsumed in the response oracle.
-/

/-- The outcome the network hands one POST attempt. -/
inductive Resp where
  | http (code : Nat) (content : List Nat) (text : List Char)
  | exn (msg : List Char)
deriving DecidableEq

/-- The triple `(pdf_bytes, error_text, http_code)` returned by
`call_labelary_pdf`; a `-1` code tags exhausted retries. -/
structure CallResult where
  pdf : Option (List Nat)
  err : Option (List Char)
  code : Option Int
deriving DecidableEq

/-- `min(60, 2 ** (attempt - 1)) + random.uniform(0, 0.5 * attempt)`. -/
def backoffDelay (attempt : Nat) (jitter : Nat → ℚ) : ℚ :=
  min 60 (2 ^ (attempt - 1)) + jitter attempt

/-- The `for attempt in range(1, max_retries + 1)` loop: fuel counts the
remaining iterations, so the loop body runs for attempts
`attempt, …, attempt + fuel - 1` and falling off the end returns the
"Max retries exceeded" failure. -/
def callLoop (responses : Nat → Resp) (jitter : Nat → ℚ) :
    Nat → Nat → List ℚ → CallResult × List ℚ
  | _, 0, log => (⟨none, some ("Max retries exceeded".toList), some (-1)⟩, log)
  | attempt, fuel + 1, log =>
    match responses attempt with
    | Resp.http code content text =>
      if code = 200 then (⟨some content, none, none⟩, log)
      else if code = 429 ∨ (500 ≤ code ∧ code < 600) then
        callLoop responses jitter (attempt + 1) fuel (log ++ [backoffDelay attempt jitter])
      else (⟨none, some (pyStrip text), some (code : Int)⟩, log)
    | Resp.exn _ =>
      callLoop responses jitter (attempt + 1) fuel (log ++ [backoffDelay attempt jitter])

/-- `call_labelary_pdf` from src/main.py, returning its result together with
the recorded sleep log. -/
def call_labelary_pdf (responses : Nat → Resp) (jitter : Nat → ℚ)
    (max_retries : Nat) (rate_delay_s : ℚ) : CallResult × List ℚ :=
  callLoop responses jitter 1 max_retries [rate_delay_s]

/-- Claim C7: a delivery attempt answered with a non-success status that is
neither 429 nor 5xx (e.g. 413) makes `call_labelary_pdf` return a failure
carrying that status immediately after the single attempt — no retry and no
sleep beyond the initial rate-limit delay. -/
theorem claim_C7 (responses : Nat → Resp) (jitter : Nat → ℚ) (max_retries : Nat)
    (rate_delay_s : ℚ) (code : Nat) (content : List Nat) (text : List Char)
    (hmr : 1 ≤ max_retries) (h1 : responses 1 = Resp.http code content text)
    (h200 : code ≠ 200) (h429 : code ≠ 429) (h5xx : ¬(500 ≤ code ∧ code < 600)) :
    call_labelary_pdf responses jitter max_retries rate_delay_s =
      (⟨none, some (pyStrip text), some (code : Int)⟩, [rate_delay_s]) := by
  obtain ⟨f, rfl⟩ : ∃ f, max_retries = f + 1 := ⟨max_retries - 1, by omega⟩
  rw [call_labelary_pdf, callLoop, h1]
  simp only []
  rw [if_neg h200, if_neg (by omega)]

theorem claim_C7_witness :
    call_labelary_pdf (fun _ => Resp.http 413 [] ("Payload Too Large".toList))
        (fun _ => 0) 5 (1 / 2) =
      (⟨none, some (pyStrip ("Payload Too Large".toList)), some ((413 : Nat) : Int)⟩,
        [1 / 2]) :=
  claim_C7 (fun _ => Resp.http 413 [] ("Payload Too Large".toList)) (fun _ => 0) 5
    (1 / 2) 413 [] ("Payload Too Large".toList) (by decide) rfl (by decide) (by decide)
    (by decide)

/-- Claim C8: 429/5xx responses and transport errors are retried up to
`max_retries` attempts, each retry sleeping `min(60, 2^(attempt-1)) + jitter`
with the jitter drawn from `[0, 0.5 × attempt)`; the deterministic part of the
backoff strictly increases over the attempts reachable before the 60-second
cap (in particular over all attempts of the default `max_retries = 5`); a 200
terminates the loop returning the body, and exhausting every attempt returns
the distinct "Max retries exceeded" failure tagged with code -1, which no hard
HTTP failure can carry. -/
theorem claim_C8 :
    (∀ (responses : Nat → Resp) (jitter : Nat → ℚ) (rate : ℚ)
        (c1 c2 c3 : List Nat) (t1 t2 t3 : List Char) (body : List Nat) (t4 : List Char),
      responses 1 = Resp.http 500 c1 t1 → responses 2 = Resp.http 500 c2 t2 →
      responses 3 = Resp.http 500 c3 t3 → responses 4 = Resp.http 200 body t4 →
      call_labelary_pdf responses jitter 5 rate =
        (⟨some body, none, none⟩,
          [rate, backoffDelay 1 jitter, backoffDelay 2 jitter, backoffDelay 3 jitter])) ∧
    (∀ (responses : Nat → Resp) (jitter : Nat → ℚ) (rate : ℚ)
        (m : List Char) (body : List Nat) (t : List Char),
      responses 1 = Resp.exn m → responses 2 = Resp.http 200 body t →
      call_labelary_pdf responses jitter 5 rate =
        (⟨some body, none, none⟩, [rate, backoffDelay 1 jitter])) ∧
    (∀ (jitter : Nat → ℚ) (a : Nat), 0 ≤ jitter a →
      min (60 : ℚ) (2 ^ (a - 1)) ≤ backoffDelay a jitter) ∧
    (∀ (jitter : Nat → ℚ) (a : Nat), jitter a < (a : ℚ) / 2 →
      backoffDelay a jitter < min (60 : ℚ) (2 ^ (a - 1)) + (a : ℚ) / 2) ∧
    (∀ a b : Nat, 1 ≤ a → a < b → b ≤ 7 →
      min (60 : ℚ) (2 ^ (a - 1)) < min (60 : ℚ) (2 ^ (b - 1))) ∧
    (∀ (responses : Nat → Resp) (jitter : Nat → ℚ) (rate : ℚ)
        (cs : Nat → List Nat) (ts : Nat → List Char),
      (∀ a, 1 ≤ a → a ≤ 5 → responses a = Resp.http 500 (cs a) (ts a)) →
      call_labelary_pdf responses jitter 5 rate =
        (⟨none, some ("Max retries exceeded".toList), some (-1)⟩,
          [rate, backoffDelay 1 jitter, backoffDelay 2 jitter, backoffDelay 3 jitter,
            backoffDelay 4 jitter, backoffDelay 5 jitter])) := by
  refine ⟨?_, ?_, ?_, ?_, ?_, ?_⟩
  · intro responses jitter rate c1 c2 c3 t1 t2 t3 body t4 h1 h2 h3 h4
    simp [call_labelary_pdf, callLoop, h1, h2, h3, h4]
  · intro responses jitter rate m body t h1 h2
    simp [call_labelary_pdf, callLoop, h1, h2]
  · intro jitter a ha
    rw [backoffDelay]
    linarith
  · intro jitter a ha
    rw [backoffDelay]
    linarith
  · intro a b ha hab hb
    interval_cases b <;> interval_cases a <;> norm_num [min_def]
  · intro responses jitter rate cs ts hall
    have h1 := hall 1 (by omega) (by omega)
    have h2 := hall 2 (by omega) (by omega)
    have h3 := hall 3 (by omega) (by omega)
    have h4 := hall 4 (by omega) (by omega)
    have h5 := hall 5 (by omega) (by omega)
    simp [call_labelary_pdf, callLoop, h1, h2, h3, h4, h5]

theorem claim_C8_witness :
    call_labelary_pdf
        (fun a => if a = 4 then Resp.http 200 [9] [] else Resp.http 500 [] [])
        (fun _ => 0) 5 (1 / 2) =
      (⟨some [9], none, none⟩,
        [1 / 2, backoffDelay 1 (fun _ => 0), backoffDelay 2 (fun _ => 0),
          backoffDelay 3 (fun _ => 0)]) :=
  claim_C8.1 (fun a => if a = 4 then Resp.http 200 [9] [] else Resp.http 500 [] [])
    (fun _ => 0) (1 / 2) [] [] [] [] [] [] [9] [] rfl rfl rfl rfl

/-!
`describe_block` (src/main.py lines 47-59) and the run orchestration
(lines 178-258).  `RE_JSON_ID = re.compile(r'"id"\s*:\s*"([^"]+)"')` is
case-sensitive; `RE_FD = re.compile(r"\^FD(.*?)\^FS", re.DOTALL | re.IGNORECASE)`.
-/

/-- Match of `"id"\s*:\s*"([^"]+)"` anchored at the start: returns group 1. -/
def jsonIdAt : List Char → Option (List Char)
  | c1 :: c2 :: c3 :: c4 :: t =>
    if c1 = '"' && c2 = 'i' && c3 = 'd' && c4 = '"' then
      match t.dropWhile isPySpace with
      | ':' :: t2 =>
        match t2.dropWhile isPySpace with
        | '"' :: t3 =>
          if t3.takeWhile (fun c => !(c = '"')) = [] then none
          else
            match t3.dropWhile (fun c => !(c = '"')) with
            | '"' :: _ => some (t3.takeWhile (fun c => !(c = '"')))
            | _ => none
        | _ => none
      | _ => none
    else none
  | _ => none

/-- `RE_JSON_ID.search`: group 1 of the leftmost match. -/
def findJsonId : List Char → Option (List Char)
  | [] => none
  | c :: cs =>
    match jsonIdAt (c :: cs) with
    | some g => some g
    | none => findJsonId cs

/-- Does the text start with `^FD` (case-insensitively)? -/
def isFDAt : List Char → Bool
  | c :: f :: d :: _ => c = '^' && isFc f && isDc d
  | _ => false

/-- Does the text start with `^FS` (case-insensitively)? -/
def isFSAt : List Char → Bool
  | c :: f :: s :: _ => c = '^' && isFc f && isSc s
  | _ => false

/-- Scan to the nearest `^FS` (the lazy `.*?\^FS`): the text before the marker
and the rest after it. -/
def scanToFS : List Char → Option (List Char × List Char)
  | [] => none
  | c :: cs =>
    if isFSAt (c :: cs) then some ([], cs.drop 2)
    else (scanToFS cs).map (fun pr => (c :: pr.1, pr.2))

/-- `RE_FD.search`: group 1 of the leftmost `\^FD(.*?)\^FS` match. -/
def findFD : List Char → Option (List Char)
  | [] => none
  | c :: cs =>
    if isFDAt (c :: cs) then
      match scanToFS (cs.drop 2) with
      | some (g, _) => some g
      | none => findFD cs
    else findFD cs

/-- `re.sub(r"\s+", " ", txt)`: collapse each maximal whitespace run to one
space.  The flag records whether the previous character was whitespace. -/
def collapseGo : Bool → List Char → List Char
  | _, [] => []
  | inRun, c :: cs =>
    if isPySpace c then
      if inRun then collapseGo true cs else ' ' :: collapseGo true cs
    else c :: collapseGo false cs

def collapseWS (s : List Char) : List Char := collapseGo false s

/-- `describe_block` from src/main.py: a readable log tag — the QR `"id"` if
present, else the first `^FD…^FS` text collapsed, stripped and truncated to 60
characters; Python treats both a missing and an empty identifier as falsy. -/
def describe_block (block : List Char) (idx : Nat) (pq : Nat) : List Char :=
  let ident : List Char :=
    match findJsonId block with
    | some s => s
    | none =>
      match findFD block with
      | some s =>
        if 60 < (pyStrip (collapseWS s)).length then
          (pyStrip (collapseWS s)).take 60 ++ ['…']
        else pyStrip (collapseWS s)
      | none => []
  let base := '#' :: natDigits (idx + 1) ++ (" (PQ=".toList ++ natDigits pq ++ [')'])
  if ident = [] then base else base ++ (" — ".toList ++ ident)

/-- One entry of the `failed` list built by the orchestration loop. -/
structure FailureEntry where
  index : Option Nat
  pq : Nat
  desc : List Char
  group : Nat
  http : Option Int
  err : List Char
deriving DecidableEq

/-- Python's `list.index`: position of the first occurrence. -/
def pyIndex : List (List Char) → List Char → Nat
  | [], _ => 0
  | x :: xs, b => if x = b then 0 else pyIndex xs b + 1

/-- The failure entries appended for one failed group
(`for b in req_blocks: …` in src/main.py lines 214-224):
`idx = blocks.index(b) if b in blocks else -1`, a 1-based `index` or `None`,
the copy count, the description (with index clamped to 0 when absent), the
group number, the HTTP code and the error text truncated to 500 characters. -/
def failuresFor (blocks : List (List Char)) (req_blocks : List (List Char)) (gi : Nat)
    (err_code : Option Int) (err_txt : List Char) : List FailureEntry :=
  req_blocks.map (fun b =>
    if b ∈ blocks then
      ⟨some (pyIndex blocks b + 1), parse_pq b,
        describe_block b (pyIndex blocks b) (parse_pq b), gi, err_code, err_txt.take 500⟩
    else
      ⟨none, parse_pq b, describe_block b 0 (parse_pq b), gi, err_code,
        err_txt.take 500⟩)

/-- Python truthiness of `pdf_bytes`: delivery counts as successful only when
it produced a non-empty byte string (`if pdf_bytes:`). -/
def deliveredOk (r : CallResult) : Bool :=
  match r.pdf with
  | some bs => !bs.isEmpty
  | none => false

/-- The `for gi, req_blocks in enumerate(requests_list, start=1)` loop.
`deliver gi` stands for the (network-determined) triple `call_labelary_pdf`
returns for group `gi`; a successful group appends its bytes to the merge
list, a failed one appends its failure entries, and the loop always continues
to the next group. -/
def processAux (blocks : List (List Char)) (deliver : Nat → CallResult) :
    List (List (List Char)) → Nat → List (List Nat) × List FailureEntry
  | [], _ => ([], [])
  | req :: rest, gi =>
    if deliveredOk (deliver gi) then
      (((deliver gi).pdf.getD []) :: (processAux blocks deliver rest (gi + 1)).1,
        (processAux blocks deliver rest (gi + 1)).2)
    else
      ((processAux blocks deliver rest (gi + 1)).1,
        failuresFor blocks req gi (deliver gi).code ((deliver gi).err.getD []) ++
          (processAux blocks deliver rest (gi + 1)).2)

/-- Process every packed request of a run, in order, starting at group 1. -/
def processBatches (blocks : List (List Char)) (deliver : Nat → CallResult) :
    List (List Nat) × List FailureEntry :=
  processAux blocks deliver (build_requests_from_blocks blocks) 1

/-- End of the run: with no successful group the run stops with no document
(`st.stop()`); otherwise the collected chunks are merged, in group order, into
the one downloadable document (modelled as that ordered chunk list), returned
together with the failure list. -/
def runOutcome (blocks : List (List Char)) (deliver : Nat → CallResult) :
    Option (List (List Nat)) × List FailureEntry :=
  (if (processBatches blocks deliver).1.isEmpty then none
    else some (processBatches blocks deliver).1,
    (processBatches blocks deliver).2)

theorem processAux_merged (blocks : List (List Char)) (deliver : Nat → CallResult) :
    ∀ (reqs : List (List (List Char))) (gi : Nat),
      (processAux blocks deliver reqs gi).1 =
        (List.range reqs.length).filterMap
          (fun i => if deliveredOk (deliver (gi + i)) = true
            then some ((deliver (gi + i)).pdf.getD []) else none) := by
  intro reqs
  induction reqs with
  | nil => intro gi; simp [processAux]
  | cons req rest ih =>
    intro gi
    have hre : (fun i => if deliveredOk (deliver (gi + (i + 1))) = true
          then some ((deliver (gi + (i + 1))).pdf.getD []) else none) =
        (fun i => if deliveredOk (deliver ((gi + 1) + i)) = true
          then some ((deliver ((gi + 1) + i)).pdf.getD []) else none) := by
      funext i
      have h : gi + (i + 1) = gi + 1 + i := by omega
      rw [h]
    rw [processAux]
    by_cases hok : deliveredOk (deliver gi) = true
    · rw [if_pos hok]
      simp only [List.length_cons, List.range_succ_eq_map, List.filterMap_cons,
        List.filterMap_map, Function.comp_def, Nat.add_zero, hok, if_true]
      rw [ih (gi + 1), hre]
    · rw [if_neg hok]
      simp only [List.length_cons, List.range_succ_eq_map, List.filterMap_cons,
        List.filterMap_map, Function.comp_def, Nat.add_zero, hok, if_false]
      rw [ih (gi + 1), hre]
      simp

/-- Claim C9: every group is processed in order regardless of earlier
failures — the merge list is exactly the bodies of the successful groups in
group order (one entry per successful delivery, independent of failures
before or after); when at least one group succeeded the run returns the
merged document together with the failure list, and when none succeeded it
returns no document; concretely, with two groups where group 1 succeeds and
group 2 exhausts its retries, the run still produces the document of group
1's bytes plus exactly one failure entry referencing group 2's block. -/
theorem claim_C9 :
    (∀ (blocks : List (List Char)) (deliver : Nat → CallResult),
      (processBatches blocks deliver).1 =
        (List.range (build_requests_from_blocks blocks).length).filterMap
          (fun i => if deliveredOk (deliver (1 + i)) = true
            then some ((deliver (1 + i)).pdf.getD []) else none)) ∧
    (∀ (blocks : List (List Char)) (deliver : Nat → CallResult),
      (processBatches blocks deliver).1 ≠ [] →
      runOutcome blocks deliver =
        (some (processBatches blocks deliver).1, (processBatches blocks deliver).2)) ∧
    (∀ (blocks : List (List Char)) (deliver : Nat → CallResult),
      (processBatches blocks deliver).1 = [] →
      (runOutcome blocks deliver).1 = none) ∧
    runOutcome ["^XA^PQ30^XZ".toList, "^XA^FDX^FS^PQ30^XZ".toList]
        (fun gi => if gi = 1 then ⟨some [5], none, none⟩
          else ⟨none, some ("Max retries exceeded".toList), some (-1)⟩) =
      (some [[5]],
        [⟨some 2, 30, "#2 (PQ=30) — X".toList, 2, some (-1),
          "Max retries exceeded".toList⟩]) := by
  refine ⟨?_, ?_, ?_, ?_⟩
  · intro blocks deliver
    exact processAux_merged blocks deliver (build_requests_from_blocks blocks) 1
  · intro blocks deliver h
    rw [runOutcome, if_neg (by simp [List.isEmpty_iff, h])]
  · intro blocks deliver h
    rw [runOutcome, if_pos (by simp [List.isEmpty_iff, h])]
  · decide

theorem claim_C9_witness :
    (processBatches ["^XA^PQ30^XZ".toList, "^XA^FDX^FS^PQ30^XZ".toList]
        (fun gi => if gi = 1 then (⟨some [5], none, none⟩ : CallResult)
          else ⟨none, some ("Max retries exceeded".toList), some (-1)⟩)).1 ≠ [] ∧
      runOutcome ["^XA^PQ30^XZ".toList, "^XA^FDX^FS^PQ30^XZ".toList]
          (fun gi => if gi = 1 then (⟨some [5], none, none⟩ : CallResult)
            else ⟨none, some ("Max retries exceeded".toList), some (-1)⟩) =
        (some (processBatches ["^XA^PQ30^XZ".toList, "^XA^FDX^FS^PQ30^XZ".toList]
            (fun gi => if gi = 1 then (⟨some [5], none, none⟩ : CallResult)
              else ⟨none, some ("Max retries exceeded".toList), some (-1)⟩)).1,
          (processBatches ["^XA^PQ30^XZ".toList, "^XA^FDX^FS^PQ30^XZ".toList]
            (fun gi => if gi = 1 then (⟨some [5], none, none⟩ : CallResult)
              else ⟨none, some ("Max retries exceeded".toList), some (-1)⟩)).2) :=
  ⟨by decide,
    claim_C9.2.1 ["^XA^PQ30^XZ".toList, "^XA^FDX^FS^PQ30^XZ".toList]
      (fun gi => if gi = 1 then (⟨some [5], none, none⟩ : CallResult)
        else ⟨none, some ("Max retries exceeded".toList), some (-1)⟩) (by decide)⟩

theorem processAux_failures (blocks : List (List Char)) (deliver : Nat → CallResult) :
    ∀ (reqs : List (List (List Char))) (gi : Nat) (e : FailureEntry),
      e ∈ (processAux blocks deliver reqs gi).2 →
      ∃ j req b, reqs.get? j = some req ∧ b ∈ req ∧
        deliveredOk (deliver (gi + j)) = false ∧
        e = (if b ∈ blocks then
              (⟨some (pyIndex blocks b + 1), parse_pq b,
                describe_block b (pyIndex blocks b) (parse_pq b), gi + j,
                (deliver (gi + j)).code,
                ((deliver (gi + j)).err.getD []).take 500⟩ : FailureEntry)
            else
              ⟨none, parse_pq b, describe_block b 0 (parse_pq b), gi + j,
                (deliver (gi + j)).code, ((deliver (gi + j)).err.getD []).take 500⟩) := by
  intro reqs
  induction reqs with
  | nil => intro gi e he; simp [processAux] at he
  | cons req rest ih =>
    intro gi e he
    rw [processAux] at he
    by_cases hok : deliveredOk (deliver gi) = true
    · rw [if_pos hok] at he
      simp only [] at he
      obtain ⟨j, req', b, h1, h2, h3, h4⟩ := ih (gi + 1) e he
      refine ⟨j + 1, req', b, by simpa using h1, h2, ?_, ?_⟩
      · have h : gi + (j + 1) = gi + 1 + j := by omega
        rw [h]; exact h3
      · have h : gi + (j + 1) = gi + 1 + j := by omega
        rw [h]; exact h4
    · rw [if_neg hok] at he
      simp only [] at he
      rcases List.mem_append.mp he with hl | hr
      · obtain ⟨b, hb, hfb⟩ := List.mem_map.mp hl
        refine ⟨0, req, b, rfl, hb, ?_, ?_⟩
        · rw [Nat.add_zero]; simpa using hok
        · rw [Nat.add_zero, ← hfb]
          by_cases hmem : b ∈ blocks <;> simp [hmem]
      · obtain ⟨j, req', b, h1, h2, h3, h4⟩ := ih (gi + 1) e hr
        refine ⟨j + 1, req', b, by simpa using h1, h2, ?_, ?_⟩
        · have h : gi + (j + 1) = gi + 1 + j := by omega
          rw [h]; exact h3
        · have h : gi + (j + 1) = gi + 1 + j := by omega
          rw [h]; exact h4

/-- Claim C10, corrected: a failure record does not always carry the block's
own 1-based source position — it carries the 1-based position of the *first*
parsed block with identical text when the failing text occurs verbatim in the
parsed list (so a duplicate reports the first occurrence's index), and no
index at all (`None`) when it does not (notably for quantity-rewritten split
fragments); along with the copy count, the `describe_block` excerpt, the group
number, the HTTP code and the error text truncated to 500 characters, and
entries arise only from failed groups. -/
theorem claim_C10 (blocks : List (List Char)) (deliver : Nat → CallResult) :
    ∀ e ∈ (processBatches blocks deliver).2,
      ∃ j req b, (build_requests_from_blocks blocks).get? j = some req ∧ b ∈ req ∧
        deliveredOk (deliver (1 + j)) = false ∧
        e = (if b ∈ blocks then
              (⟨some (pyIndex blocks b + 1), parse_pq b,
                describe_block b (pyIndex blocks b) (parse_pq b), 1 + j,
                (deliver (1 + j)).code,
                ((deliver (1 + j)).err.getD []).take 500⟩ : FailureEntry)
            else
              ⟨none, parse_pq b, describe_block b 0 (parse_pq b), 1 + j,
                (deliver (1 + j)).code, ((deliver (1 + j)).err.getD []).take 500⟩) :=
  fun e he =>
    processAux_failures blocks deliver (build_requests_from_blocks blocks) 1 e he

theorem claim_C10_cex :
    ((runOutcome ["^XA^PQ30^XZ".toList, "^XA^PQ30^XZ".toList]
        (fun gi => if gi = 2 then ⟨none, some ("bad".toList), some 413⟩
          else ⟨some [3], none, none⟩)).2.map (fun e => e.index) = [some 1] ∧
      [some 1] ≠ [some (2 : Nat)]) ∧
    (runOutcome ["^XA^PQ120^XZ".toList]
        (fun _ => ⟨none, some ("bad".toList), some 413⟩)).2.map (fun e => e.index) =
      [none, none, none] := by
  exact ⟨⟨by decide, by decide⟩, by decide⟩

theorem claim_C10_witness :
    ∃ j req b,
      (build_requests_from_blocks
          ["^XA^PQ30^XZ".toList, "^XA^PQ30^XZ".toList]).get? j = some req ∧ b ∈ req ∧
      deliveredOk ((fun gi => if gi = 2 then (⟨none, some ("bad".toList), some 413⟩ : CallResult)
        else ⟨some [3], none, none⟩) (1 + j)) = false ∧
      (⟨some 1, 30, "#1 (PQ=30)".toList, 2, some 413, "bad".toList⟩ : FailureEntry) =
        (if b ∈ ["^XA^PQ30^XZ".toList, "^XA^PQ30^XZ".toList] then
          (⟨some (pyIndex ["^XA^PQ30^XZ".toList, "^XA^PQ30^XZ".toList] b + 1), parse_pq b,
            describe_block b (pyIndex ["^XA^PQ30^XZ".toList, "^XA^PQ30^XZ".toList] b)
              (parse_pq b), 1 + j,
            ((fun gi => if gi = 2 then (⟨none, some ("bad".toList), some 413⟩ : CallResult)
              else ⟨some [3], none, none⟩) (1 + j)).code,
            (((fun gi => if gi = 2 then (⟨none, some ("bad".toList), some 413⟩ : CallResult)
              else ⟨some [3], none, none⟩) (1 + j)).err.getD []).take 500⟩ : FailureEntry)
        else
          ⟨none, parse_pq b, describe_block b 0 (parse_pq b), 1 + j,
            ((fun gi => if gi = 2 then (⟨none, some ("bad".toList), some 413⟩ : CallResult)
              else ⟨some [3], none, none⟩) (1 + j)).code,
            (((fun gi => if gi = 2 then (⟨none, some ("bad".toList), some 413⟩ : CallResult)
              else ⟨some [3], none, none⟩) (1 + j)).err.getD []).take 500⟩) :=
  claim_C10 ["^XA^PQ30^XZ".toList, "^XA^PQ30^XZ".toList]
    (fun gi => if gi = 2 then (⟨none, some ("bad".toList), some 413⟩ : CallResult)
      else ⟨some [3], none, none⟩)
    ⟨some 1, 30, "#1 (PQ=30)".toList, 2, some 413, "bad".toList⟩ (by decide)
